import Mathlib

/-!
# PoCR economic-consensus layer: shallow embedding and verification

This file embeds the reward / ranking / fee-adjustment / registry-synchronization
core of the `cliquepocr` consensus package (files `consensus/cliquepocr/cliquepocr.go`
and `consensus/cliquepocr/RaceRankComputation.go`) as Lean definitions and proves
the specified properties about them.

Modelling conventions:
* Go `*big.Int` values become `ℤ`; Go `*big.Rat` values become `ℚ`.
* Go's `big.Int.Div` is Euclidean division, which coincides with Lean's `/` on `ℤ`
  (`Int.ediv`); `big.Rat` keeps a positive denominator, exactly as `Rat.den`.
* Fallible Go functions returning `(value, error)` become `Except String value`.
* The mutable `rankArray` cache of `RaceRankComputation` is passed explicitly as a
  `List ℚ` state; storage writes of the sealer registry are modelled as an explicit
  write log over a registry state record.
-/

namespace CliquePoCR

/-! ### Protocol constants (consensus/cliquepocr/cliquepocr.go) -/

/-- `var CTCUnit = big.NewInt(1e+18)`. -/
def CTCUnit : ℤ := 1000000000000000000

/-- `var MinBlockBetweenAudit = big.NewInt((3600 / 4) * 24 * 365)` — one year of blocks. -/
def MinBlockBetweenAudit : ℤ := 3600 / 4 * 24 * 365

/-- `var PenaltyOnOldFootprint int64 = 5` — percent added per elapsed audit year. -/
def PenaltyOnOldFootprint : ℤ := 5

/-! ### RaceRankComputation (consensus/cliquepocr/RaceRankComputation.go) -/

/-- `var inflationDenominator = big.NewInt(10000000)`. -/
def inflationDenominator : ℤ := 10000000

/-- `var minCreationPerBlock = new(big.Rat).Mul(big.NewRat(100000, 365*24*3600/4),
new(big.Rat).SetInt(CTCUnit))`. -/
def minCreationPerBlock : ℚ := 100000 / (365 * 24 * 3600 / 4) * (CTCUnit : ℚ)

/-- The `rankArray` of a fresh `RaceRankComputation` (`NewRaceRankComputation`):
`[]*big.Rat{big.NewRat(1, 1)}`. -/
def rankArrayInit : List ℚ := [1]

/-- The extension loop inside `getRanking`: starting from the last cached entry
`previous`, append `n` further entries, each the previous one times `9/10`. -/
def growLoop : ℚ → List ℚ → ℕ → List ℚ
  | _, arr, 0 => arr
  | previous, arr, Nat.succ n =>
      growLoop (previous * (9 / 10)) (arr ++ [previous * (9 / 10)]) n

/-- `(wp *RaceRankComputation) getRanking(rank int)`: extend the cached
`rankArray` on demand and return (new cache, `rankArray[rank]`). The Go loop
runs for `i := len(arr); i <= rank; i++`, i.e. `rank + 1 - len(arr)` iterations. -/
def getRanking (rankArray : List ℚ) (rank : ℕ) : List ℚ × ℚ :=
  let previous := rankArray.getLastD 1
  let arr := growLoop previous rankArray (rank + 1 - rankArray.length)
  (arr, arr.getD rank 0)

/-- `(wp *RaceRankComputation) CalculateRanking(footprint, nodesFootprint)`:
fails on non-positive footprint or an empty node list; otherwise counts the
nodes whose footprint is strictly below the signer's but strictly positive and
returns the cached decay value at that index (plus the updated cache state). -/
def CalculateRanking (rankArray : List ℚ) (footprint : ℤ) (nodesFootprint : List ℤ) :
    Except String (ℚ × ℕ × List ℚ) :=
  if footprint ≤ 0 then .error "cannot proceed with zero or negative footprint"
  else
    let nbNodes := nodesFootprint.length
    if nbNodes = 0 then .error "cannot rank zero node"
    else
      let NbItemsAbove := nodesFootprint.countP fun p => decide (p < footprint) && decide (0 < p)
      let res := getRanking rankArray NbItemsAbove
      .ok (res.2, nbNodes, res.1)

/-- `(wp *RaceRankComputation) CalculateGlobalInflationControlFactor(M *big.Int)`:
error on negative supply, `1` on zero supply, otherwise the inverse of the
4-term truncated power series of `alpha^L` at `L = M/(CTCUnit*inflationDenominator) * 72/100`. -/
def CalculateGlobalInflationControlFactor (M : ℤ) : Except String ℚ :=
  if M < 0 then .error "negative total crypto amount is not possible"
  else if M = 0 then .ok 1
  else
    let L0 : ℚ := (M : ℚ) / ((CTCUnit * inflationDenominator : ℤ) : ℚ)
    let L : ℚ := L0 * (72 / 100)
    let D1 : ℚ := 1 + L
    let L2 : ℚ := L * L
    let D2 : ℚ := D1 + L2 * (1 / 2)
    let L3 : ℚ := L2 * L
    let D3 : ℚ := D2 + L3 * (1 / 6)
    let L4 : ℚ := L3 * L
    let D4 : ℚ := D3 + L4 * (1 / 24)
    .ok D4⁻¹

/-- `(wp *RaceRankComputation) CalculateCarbonFootprintReward(rank, nbNodes, totalCryptoAmount)`:
`rank × CTCUnit × nbNodes × inflationFactor`, clamped below by `minCreationPerBlock`,
then converted to an integer by `big.Int.Div(Num, Denom)` (Euclidean division). -/
def CalculateCarbonFootprintReward (rank : ℚ) (nbNodes : ℤ) (totalCryptoAmount : ℤ) :
    Except String ℤ :=
  let r1 : ℚ := rank * (CTCUnit : ℚ)
  let r2 : ℚ := r1 * (nbNodes : ℚ)
  match CalculateGlobalInflationControlFactor totalCryptoAmount with
  | .error e => .error e
  | .ok inflationFactor =>
      let r3 : ℚ := r2 * inflationFactor
      let r4 : ℚ := if r3 < minCreationPerBlock then minCreationPerBlock else r3
      .ok (r4.num / (r4.den : ℤ))

/-! ### Transactions and per-block fee / penalty computations (cliquepocr.go) -/

/-- The two extra fee fields carried by PoCR transactions, as read by
`calcCarbonFootprintTxFee` (`tx.FeeTransferred`, `tx.FeeBurnt`). -/
structure PocrTx where
  FeeTransferred : ℤ
  FeeBurnt : ℤ
deriving DecidableEq

/-- `calcCarbonFootprintAuditIncentive(footprint, lastBlock, currentBlock)`:
age penalty on a footprint. For a positive footprint and a positive block delta,
`footprint * (100 + (delta / MinBlockBetweenAudit) * PenaltyOnOldFootprint) / 100`
with Euclidean integer division (division by 100 applied last). -/
def calcCarbonFootprintAuditIncentive (footprint lastBlock currentBlock : ℤ) : ℤ :=
  let delta := currentBlock - lastBlock
  if delta ≤ 0 ∨ footprint ≤ 0 then footprint
  else
    let factor0 := delta / MinBlockBetweenAudit
    let factor1 := factor0 * PenaltyOnOldFootprint
    let factor2 := factor1 + 100
    footprint * factor2 / 100

/-- `calcCarbonFootprintTxFee(c, address, header, rank, txs)`: sums the transferred
and burnt fees over the block's transactions, computes
`adjustment = received*rank - received` as a rational, and returns
(`big.Int.Div(adjustment.Num(), adjustment.Denom())`, burnt). -/
def calcCarbonFootprintTxFee (rank : ℚ) (txs : List PocrTx) : ℤ × ℤ :=
  let received : ℤ := txs.foldl (fun acc tx => acc + tx.FeeTransferred) 0
  let burnt : ℤ := txs.foldl (fun acc tx => acc + tx.FeeBurnt) 0
  let expected : ℚ := (received : ℚ) * rank
  let adjustment : ℚ := expected - (received : ℚ)
  (adjustment.num / (adjustment.den : ℤ), burnt)

/-- `addTotalCryptoBalance(state, value)`: read the `GeneratedPocRTotal` session
variable, add `value`, store the result back. Modelled on the counter value. -/
def addTotalCryptoBalance (currentTotal value : ℤ) : ℤ := currentTotal + value

/-- The effect of `blockPostProcessing` on the `GeneratedPocRTotal` counter.
`ranking` is the outcome of `calcCarbonFootprintRanking` (which reads the counter
as the total-supply snapshot `M = total0`): `some (rank, nbNodes)` on success,
`none` on failure (in which case the code forces `rank = 0` before the fee step).
Mirrors the three counter mutations: the reward credit (only when positive),
the signed fee adjustment, and the burnt-fee deduction. -/
def blockPostProcessingSupply (total0 : ℤ) (ranking : Option (ℚ × ℤ)) (txs : List PocrTx) : ℤ :=
  let blockReward : ℤ :=
    match ranking with
    | none => 0
    | some (rank, nbNodes) =>
        match CalculateCarbonFootprintReward rank nbNodes total0 with
        | .error _ => 0
        | .ok r => r
  let total1 := if 0 < blockReward then addTotalCryptoBalance total0 blockReward else total0
  let rank : ℚ := match ranking with | none => 0 | some (r, _) => r
  let fees := calcCarbonFootprintTxFee rank txs
  let feeAdjustment := fees.1
  let burnt := fees.2
  let total2 :=
    if 0 < feeAdjustment then addTotalCryptoBalance total1 feeAdjustment
    else if feeAdjustment < 0 then addTotalCryptoBalance total1 feeAdjustment
    else total1
  if burnt ≠ 0 then addTotalCryptoBalance total2 (-burnt) else total2

/-! ### Sealer registry synchronization (synchronizeSealers, cliquepocr.go) -/

/-- Sealer addresses, abstracted as naturals; `0` plays the zero address. -/
abbrev Address := ℕ

/-- `var zeroAddress = common.HexToAddress("0x00...00")`. -/
def zeroAddress : Address := 0

/-- `contains(array, value)` helper from cliquepocr.go. -/
def containsAddr (array : List Address) (value : Address) : Bool :=
  match array with
  | [] => false
  | v :: rest => if v = value then true else containsAddr rest value

/-- One storage write performed through the carbon-footprint contract accessor. -/
inductive RegistryWrite
  | setIsSealer (a : Address) (b : Bool)
  | setSealer (i : ℕ) (a : Address)
  | setNbNodes (n : ℕ)
deriving DecidableEq

/-- The on-chain sealer registry: the indexed `sealers` array, the
`isSealer` flag per address, and the stored node count. -/
structure RegistryState where
  sealers : ℕ → Address
  isSealer : Address → Bool
  nbNodes : ℕ

/-- Body of the removal loop: if the address stored at slot `i` is not among
the authoritative signers, disable it and clear the slot to the zero address. -/
def removeStep (signers : List Address) (sw : RegistryState × List RegistryWrite) (i : ℕ) :
    RegistryState × List RegistryWrite :=
  let st := sw.1
  let s := st.sealers i
  if containsAddr signers s then sw
  else
    ({ st with
        isSealer := fun a => if a = s then false else st.isSealer a,
        sealers := fun j => if j = i then zeroAddress else st.sealers j },
      sw.2 ++ [.setIsSealer s false, .setSealer i zeroAddress])

/-- The removal loop `for i := 0; i < nbNodes; i++`, counting down `n`
remaining iterations with `i` the current index. -/
def removePass (signers : List Address) :
    RegistryState × List RegistryWrite → ℕ → ℕ → RegistryState × List RegistryWrite
  | sw, _, 0 => sw
  | sw, i, Nat.succ n => removePass signers (removeStep signers sw i) (i + 1) n

/-- Body of the replication loop: force slot `i` to hold `signer` and mark it
enabled, writing only when the stored value differs. -/
def insertStep (sw : RegistryState × List RegistryWrite) (i : ℕ) (signer : Address) :
    RegistryState × List RegistryWrite :=
  let st := sw.1
  let s := st.sealers i
  let e := st.isSealer signer
  let sw1 :=
    if s ≠ signer then
      ({ st with sealers := fun j => if j = i then signer else st.sealers j },
        sw.2 ++ [.setSealer i signer])
    else sw
  if e then sw1
  else
    ({ sw1.1 with isSealer := fun a => if a = signer then true else sw1.1.isSealer a },
      sw1.2 ++ [.setIsSealer signer true])

/-- The replication loop `for i, signer := range signers`. -/
def insertPass :
    RegistryState × List RegistryWrite → ℕ → List Address → RegistryState × List RegistryWrite
  | sw, _, [] => sw
  | sw, i, signer :: rest => insertPass (insertStep sw i signer) (i + 1) rest

/-- `synchronizeSealers(c, chain, author, state, header)` after the authoritative
signer list has been resolved: removal pass over the stored count, replication
pass over the signers, then the count update when it differs. Returns the final
registry state together with the log of storage writes performed. -/
def synchronizeSealers (signers : List Address) (st : RegistryState) :
    RegistryState × List RegistryWrite :=
  let nbNodes := st.nbNodes
  let sw1 := removePass signers (st, []) 0 nbNodes
  let sw2 := insertPass sw1 0 signers
  if sw2.1.nbNodes ≠ signers.length then
    ({ sw2.1 with nbNodes := signers.length }, sw2.2 ++ [.setNbNodes signers.length])
  else sw2

/-! ### Arithmetic helper lemmas -/

/-- Go's `big.Int.Div` (Euclidean division, here `/` on `ℤ`) of an integer by a
positive integer is the floor of the exact rational quotient. -/
theorem floor_intCast_div (a b : ℤ) (hb : 0 ≤ b) : ⌊(a : ℚ) / (b : ℚ)⌋ = a / b := by
  have h := Rat.floor_intCast_div_natCast a b.toNat
  have h1 : ((b.toNat : ℕ) : ℚ) = (b : ℚ) := by
    rw [← Int.cast_natCast, Int.toNat_of_nonneg hb]
  have h2 : ((b.toNat : ℕ) : ℤ) = b := Int.toNat_of_nonneg hb
  rw [h1, h2] at h
  exact h

/-- `big.Int.Div(q.Num(), q.Denom())` computes the floor of the rational `q`. -/
theorem ediv_num_den (q : ℚ) : q.num / (q.den : ℤ) = ⌊q⌋ := Rat.floor_def.symm

/-! ### Rank-array cache characterization -/

/-- The geometric table `[1, 9/10, (9/10)^2, ...]` of length `m`: the contents of
every reachable `rankArray` cache state. -/
def rankSeq (m : ℕ) : List ℚ := (List.range m).map fun i => (9 / 10 : ℚ) ^ i

/-- A cache state is valid when it is a nonempty geometric prefix; `rankArrayInit`
is valid and `getRanking` preserves validity. -/
def RankCacheOk (arr : List ℚ) : Prop := ∃ m, 0 < m ∧ arr = rankSeq m

theorem rankSeq_succ (m : ℕ) : rankSeq (m + 1) = rankSeq m ++ [(9 / 10 : ℚ) ^ m] := by
  simp [rankSeq, List.range_succ]

theorem rankArrayInit_ok : RankCacheOk rankArrayInit :=
  ⟨1, Nat.one_pos, by norm_num [rankArrayInit, rankSeq, List.range_succ]⟩

theorem growLoop_rankSeq (n : ℕ) : ∀ m, 0 < m →
    growLoop ((9 / 10 : ℚ) ^ (m - 1)) (rankSeq m) n = rankSeq (m + n) := by
  induction n with
  | zero => intro m _; simp [growLoop]
  | succ k ih =>
    intro m hm
    rw [growLoop]
    have hpow : (9 / 10 : ℚ) ^ (m - 1) * (9 / 10) = (9 / 10 : ℚ) ^ m := by
      rw [← pow_succ]
      congr 1
      omega
    rw [hpow, ← rankSeq_succ]
    have h2 : (9 / 10 : ℚ) ^ m = (9 / 10 : ℚ) ^ ((m + 1) - 1) := by
      norm_num
    rw [h2, ih (m + 1) (Nat.succ_pos m)]
    congr 1
    omega

theorem rankSeq_length (m : ℕ) : (rankSeq m).length = m := by simp [rankSeq]

theorem rankSeq_getD (m k : ℕ) (h : k < m) : (rankSeq m).getD k 0 = (9 / 10 : ℚ) ^ k := by
  rw [rankSeq, List.getD_eq_getElem?_getD, List.getElem?_map, List.getElem?_range h]
  rfl

theorem rankSeq_getLastD (m : ℕ) (hm : 0 < m) :
    (rankSeq m).getLastD 1 = (9 / 10 : ℚ) ^ (m - 1) := by
  rw [List.getLastD_eq_getLast?, List.getLast?_eq_getElem?, rankSeq_length, rankSeq,
    List.getElem?_map, List.getElem?_range (by omega)]
  rfl

/-- `getRanking` on a valid cache returns `(9/10)^rank` and leaves a valid cache. -/
theorem getRanking_spec (arr : List ℚ) (k : ℕ) (h : RankCacheOk arr) :
    (getRanking arr k).2 = (9 / 10 : ℚ) ^ k ∧ RankCacheOk (getRanking arr k).1 := by
  obtain ⟨m, hm, rfl⟩ := h
  simp only [getRanking]
  rw [rankSeq_getLastD m hm, rankSeq_length, growLoop_rankSeq _ m hm]
  refine ⟨rankSeq_getD _ k (by omega), ⟨m + (k + 1 - m), by omega, rfl⟩⟩

/-! ### CalculateRanking characterization -/

theorem CalculateRanking_error_iff (arr : List ℚ) (f : ℤ) (peers : List ℤ) :
    (∃ e, CalculateRanking arr f peers = .error e) ↔ f ≤ 0 ∨ peers = [] := by
  unfold CalculateRanking
  by_cases h1 : f ≤ 0
  · simp [h1]
  · rw [if_neg h1]
    by_cases h2 : peers = []
    · simp [h2]
    · have h3 : peers.length ≠ 0 := by simpa [List.length_eq_zero] using h2
      simp [h1, h2, h3]

theorem CalculateRanking_ok (arr : List ℚ) (f : ℤ) (peers : List ℤ) (r : ℚ) (n : ℕ)
    (arr2 : List ℚ) (harr : RankCacheOk arr)
    (h : CalculateRanking arr f peers = .ok (r, n, arr2)) :
    r = (9 / 10 : ℚ) ^ (peers.countP fun p => decide (p < f) && decide (0 < p)) ∧
    n = peers.length ∧ RankCacheOk arr2 := by
  simp only [CalculateRanking] at h
  split at h
  · exact absurd h (by simp)
  · split at h
    · exact absurd h (by simp)
    · rw [Except.ok.injEq, Prod.mk.injEq, Prod.mk.injEq] at h
      obtain ⟨hr, hn, ha⟩ := h
      have hspec := getRanking_spec arr
        (peers.countP fun p => decide (p < f) && decide (0 < p)) harr
      refine ⟨?_, hn.symm, ?_⟩
      · rw [← hr]; exact hspec.1
      · rw [← ha]; exact hspec.2

/-! ### Inflation-control helper lemmas -/

/-- The series argument `L` computed by `CalculateGlobalInflationControlFactor`. -/
def LofM (M : ℤ) : ℚ := (M : ℚ) / ((CTCUnit * inflationDenominator : ℤ) : ℚ) * (72 / 100)

/-- The 4-term truncated series denominator `D` computed by
`CalculateGlobalInflationControlFactor`. -/
def inflD (M : ℤ) : ℚ :=
  1 + LofM M + LofM M * LofM M * (1 / 2) + LofM M * LofM M * LofM M * (1 / 6)
    + LofM M * LofM M * LofM M * LofM M * (1 / 24)

theorem infl_eq_of_pos {M : ℤ} (h : 0 < M) :
    CalculateGlobalInflationControlFactor M = .ok (inflD M)⁻¹ := by
  unfold CalculateGlobalInflationControlFactor
  rw [if_neg (by omega), if_neg (by omega)]
  rfl

theorem infl_zero : CalculateGlobalInflationControlFactor 0 = .ok 1 := by
  norm_num [CalculateGlobalInflationControlFactor]

theorem infl_neg {M : ℤ} (h : M < 0) :
    CalculateGlobalInflationControlFactor M =
      .error "negative total crypto amount is not possible" := by
  unfold CalculateGlobalInflationControlFactor
  rw [if_pos h]

theorem LofM_pos {M : ℤ} (h : 0 < M) : 0 < LofM M := by
  have hM : (0 : ℚ) < (M : ℚ) := by exact_mod_cast h
  have hden : (0 : ℚ) < ((CTCUnit * inflationDenominator : ℤ) : ℚ) := by
    norm_num [CTCUnit, inflationDenominator]
  unfold LofM
  have := div_pos hM hden
  nlinarith

theorem LofM_lt {M1 M2 : ℤ} (h : M1 < M2) : LofM M1 < LofM M2 := by
  have hM : (M1 : ℚ) < (M2 : ℚ) := by exact_mod_cast h
  have hden : (0 : ℚ) < ((CTCUnit * inflationDenominator : ℤ) : ℚ) := by
    norm_num [CTCUnit, inflationDenominator]
  unfold LofM
  have h1 : (M1 : ℚ) / ((CTCUnit * inflationDenominator : ℤ) : ℚ) <
      (M2 : ℚ) / ((CTCUnit * inflationDenominator : ℤ) : ℚ) :=
    div_lt_div_of_pos_right hM hden
  nlinarith

theorem one_lt_inflD {M : ℤ} (h : 0 < M) : 1 < inflD M := by
  have hL := LofM_pos h
  unfold inflD
  nlinarith [mul_pos hL hL, mul_pos (mul_pos hL hL) hL, mul_pos (mul_pos (mul_pos hL hL) hL) hL]

theorem inflD_strict_mono {M1 M2 : ℤ} (h1 : 0 < M1) (h2 : M1 < M2) : inflD M1 < inflD M2 := by
  have hL1 := LofM_pos h1
  have hL12 := LofM_lt h2
  have hL2 : 0 < LofM M2 := lt_trans hL1 hL12
  unfold inflD
  have t2 : LofM M1 * LofM M1 < LofM M2 * LofM M2 := by nlinarith
  have t3 : LofM M1 * LofM M1 * LofM M1 < LofM M2 * LofM M2 * LofM M2 := by nlinarith
  have t4 : LofM M1 * LofM M1 * LofM M1 * LofM M1 <
      LofM M2 * LofM M2 * LofM M2 * LofM M2 := by nlinarith
  linarith

/-- For a non-negative supply the inflation-control factor exists and lies in `(0, 1]`. -/
theorem infl_ok_of_nonneg {M : ℤ} (hM : 0 ≤ M) :
    ∃ q, CalculateGlobalInflationControlFactor M = .ok q ∧ 0 < q ∧ q ≤ 1 := by
  rcases eq_or_lt_of_le hM with h0 | hpos
  · exact ⟨1, by rw [← h0]; exact infl_zero, one_pos, le_refl 1⟩
  · refine ⟨(inflD M)⁻¹, infl_eq_of_pos hpos, ?_, ?_⟩
    · exact inv_pos.mpr (lt_trans one_pos (one_lt_inflD hpos))
    · exact inv_le_one_of_one_le₀ (le_of_lt (one_lt_inflD hpos))

theorem infl_ok_range {M : ℤ} {q : ℚ} (hM : 0 ≤ M)
    (h : CalculateGlobalInflationControlFactor M = .ok q) : 0 < q ∧ q ≤ 1 := by
  obtain ⟨q2, hq2, hpos, hle⟩ := infl_ok_of_nonneg hM
  rw [h, Except.ok.injEq] at hq2
  exact hq2 ▸ ⟨hpos, hle⟩

/-! ### Reward helper lemmas -/

theorem minCreation_pos : 0 < minCreationPerBlock := by
  norm_num [minCreationPerBlock, CTCUnit]

theorem floor_minCreation : ⌊minCreationPerBlock⌋ = 12683916793505834 := by
  norm_num [minCreationPerBlock, CTCUnit]

theorem reward_of_infl_ok {M : ℤ} {q : ℚ} (r : ℚ) (N : ℤ)
    (h : CalculateGlobalInflationControlFactor M = .ok q) :
    CalculateCarbonFootprintReward r N M =
      .ok ⌊if r * (CTCUnit : ℚ) * (N : ℚ) * q < minCreationPerBlock then minCreationPerBlock
           else r * (CTCUnit : ℚ) * (N : ℚ) * q⌋ := by
  simp only [CalculateCarbonFootprintReward]
  rw [h]
  dsimp only
  rw [ediv_num_den]

theorem reward_of_infl_error {M : ℤ} {e : String} (r : ℚ) (N : ℤ)
    (h : CalculateGlobalInflationControlFactor M = .error e) :
    CalculateCarbonFootprintReward r N M = .error e := by
  simp only [CalculateCarbonFootprintReward]
  rw [h]

/-! ### Fee helper lemmas -/

theorem foldl_add_map (f : PocrTx → ℤ) (txs : List PocrTx) (c : ℤ) :
    txs.foldl (fun acc tx => acc + f tx) c = c + (txs.map f).sum := by
  induction txs generalizing c with
  | nil => simp
  | cons t ts ih => simp [ih, add_assoc]

/-- `calcCarbonFootprintTxFee` computes `(⌊F·rank⌋ − F, B)` where `F` is the total
transferred fee and `B` the total burnt fee of the block's transactions. -/
theorem txFee_eq (rank : ℚ) (txs : List PocrTx) :
    calcCarbonFootprintTxFee rank txs =
      (⌊((((txs.map fun tx => tx.FeeTransferred).sum : ℤ) : ℚ)) * rank⌋ -
          (txs.map fun tx => tx.FeeTransferred).sum,
        (txs.map fun tx => tx.FeeBurnt).sum) := by
  simp only [calcCarbonFootprintTxFee]
  rw [foldl_add_map, foldl_add_map, zero_add, zero_add, ediv_num_den, Int.floor_sub_int]

/-! ### Registry synchronization helper lemmas -/

theorem containsAddr_iff (l : List Address) (a : Address) : containsAddr l a = true ↔ a ∈ l := by
  induction l with
  | nil => simp [containsAddr]
  | cons x xs ih =>
    simp only [containsAddr, List.mem_cons]
    by_cases h : x = a
    · simp [h]
    · rw [if_neg h, ih]
      constructor
      · exact fun hm => Or.inr hm
      · rintro (rfl | hm)
        · exact absurd rfl h
        · exact hm

theorem removeStep_nbNodes (signers : List Address) (sw : RegistryState × List RegistryWrite)
    (i : ℕ) : ((removeStep signers sw i).1).nbNodes = sw.1.nbNodes := by
  unfold removeStep
  dsimp only
  split <;> rfl

theorem removePass_nbNodes (signers : List Address) :
    ∀ (n i : ℕ) (sw : RegistryState × List RegistryWrite),
      ((removePass signers sw i n).1).nbNodes = sw.1.nbNodes := by
  intro n
  induction n with
  | zero => intro i sw; rfl
  | succ k ih =>
    intro i sw
    rw [removePass, ih, removeStep_nbNodes]

theorem insertStep_nbNodes (sw : RegistryState × List RegistryWrite) (i : ℕ) (a : Address) :
    ((insertStep sw i a).1).nbNodes = sw.1.nbNodes := by
  unfold insertStep
  dsimp only
  split <;> split <;> rfl

theorem insertPass_nbNodes :
    ∀ (l : List Address) (i : ℕ) (sw : RegistryState × List RegistryWrite),
      ((insertPass sw i l).1).nbNodes = sw.1.nbNodes := by
  intro l
  induction l with
  | nil => intro i sw; rfl
  | cons a rest ih =>
    intro i sw
    rw [insertPass, ih, insertStep_nbNodes]

theorem insertStep_self (sw : RegistryState × List RegistryWrite) (i : ℕ) (a : Address) :
    ((insertStep sw i a).1).sealers i = a ∧ ((insertStep sw i a).1).isSealer a = true := by
  unfold insertStep
  dsimp only
  by_cases h1 : sw.1.sealers i ≠ a <;> by_cases h2 : sw.1.isSealer a <;>
    simp [h1, h2] <;> simp at h1 <;> exact h1

theorem insertStep_sealers_ne (sw : RegistryState × List RegistryWrite) (i : ℕ) (a : Address)
    (j : ℕ) (h : j ≠ i) : ((insertStep sw i a).1).sealers j = sw.1.sealers j := by
  unfold insertStep
  dsimp only
  by_cases h1 : sw.1.sealers i ≠ a <;> by_cases h2 : sw.1.isSealer a <;> simp [h1, h2, h]

theorem insertStep_isSealer_true (sw : RegistryState × List RegistryWrite) (i : ℕ)
    (a b : Address) (h : sw.1.isSealer b = true) :
    ((insertStep sw i a).1).isSealer b = true := by
  unfold insertStep
  dsimp only
  by_cases h1 : sw.1.sealers i ≠ a <;> by_cases h2 : sw.1.isSealer a <;>
    by_cases h3 : b = a <;> simp [h1, h2, h3, h]

theorem insertPass_sealers_lt :
    ∀ (l : List Address) (i : ℕ) (sw : RegistryState × List RegistryWrite) (j : ℕ), j < i →
      ((insertPass sw i l).1).sealers j = sw.1.sealers j := by
  intro l
  induction l with
  | nil => intro i sw j _; rfl
  | cons a rest ih =>
    intro i sw j hj
    rw [insertPass, ih (i + 1) (insertStep sw i a) j (by omega)]
    exact insertStep_sealers_ne sw i a j (by omega)

theorem insertPass_isSealer_true :
    ∀ (l : List Address) (i : ℕ) (sw : RegistryState × List RegistryWrite) (b : Address),
      sw.1.isSealer b = true → ((insertPass sw i l).1).isSealer b = true := by
  intro l
  induction l with
  | nil => intro i sw b h; exact h
  | cons a rest ih =>
    intro i sw b h
    rw [insertPass]
    exact ih (i + 1) _ b (insertStep_isSealer_true sw i a b h)

/-- After the replication pass, every processed slot holds its signer and every
processed signer is enabled. -/
theorem insertPass_post :
    ∀ (l : List Address) (i : ℕ) (sw : RegistryState × List RegistryWrite) (k : ℕ)
      (hk : k < l.length),
      ((insertPass sw i l).1).sealers (i + k) = l.get ⟨k, hk⟩ ∧
      ((insertPass sw i l).1).isSealer (l.get ⟨k, hk⟩) = true := by
  intro l
  induction l with
  | nil => intro i sw k hk; exact absurd hk (by simp)
  | cons a rest ih =>
    intro i sw k hk
    match k with
    | 0 =>
      rw [insertPass]
      constructor
      · have hlt := insertPass_sealers_lt rest (i + 1) (insertStep sw i a) i (by omega)
        simp only [Nat.add_zero]
        rw [hlt]
        exact (insertStep_self sw i a).1
      · exact insertPass_isSealer_true rest (i + 1) (insertStep sw i a) a
          (insertStep_self sw i a).2
    | k + 1 =>
      rw [insertPass]
      have hk2 : k < rest.length := by simpa using hk
      have h := ih (i + 1) (insertStep sw i a) k hk2
      rw [show i + (k + 1) = (i + 1) + k by omega]
      exact h

theorem removeStep_noop (signers : List Address) (sw : RegistryState × List RegistryWrite)
    (i : ℕ) (h : containsAddr signers (sw.1.sealers i) = true) :
    removeStep signers sw i = sw := by
  unfold removeStep
  dsimp only
  rw [if_pos h]

theorem removePass_noop (signers : List Address) :
    ∀ (n i : ℕ) (sw : RegistryState × List RegistryWrite),
      (∀ k, k < n → containsAddr signers (sw.1.sealers (i + k)) = true) →
      removePass signers sw i n = sw := by
  intro n
  induction n with
  | zero => intro i sw _; rfl
  | succ m ih =>
    intro i sw h
    rw [removePass, removeStep_noop signers sw i (by simpa using h 0 (Nat.succ_pos m))]
    exact ih (i + 1) sw fun k hk => by
      have := h (k + 1) (by omega)
      rwa [show i + (k + 1) = (i + 1) + k by omega] at this

theorem insertStep_noop (sw : RegistryState × List RegistryWrite) (i : ℕ) (a : Address)
    (h1 : sw.1.sealers i = a) (h2 : sw.1.isSealer a = true) : insertStep sw i a = sw := by
  unfold insertStep
  dsimp only
  rw [if_pos h2, if_neg (show ¬(sw.1.sealers i ≠ a) by simp [h1])]

theorem insertPass_noop :
    ∀ (l : List Address) (i : ℕ) (sw : RegistryState × List RegistryWrite),
      (∀ k (hk : k < l.length),
        sw.1.sealers (i + k) = l.get ⟨k, hk⟩ ∧ sw.1.isSealer (l.get ⟨k, hk⟩) = true) →
      insertPass sw i l = sw := by
  intro l
  induction l with
  | nil => intro i sw _; rfl
  | cons a rest ih =>
    intro i sw h
    have h0 := h 0 (by simp)
    rw [insertPass, insertStep_noop sw i a (by simpa using h0.1) (by simpa using h0.2)]
    exact ih (i + 1) sw fun k hk => by
      have hh := h (k + 1) (by simpa using hk)
      rw [show i + (k + 1) = (i + 1) + k by omega] at hh
      exact hh

/-! ### Claim theorems -/

/-- C9: Registry synchronization is idempotent: for every initial registry state
and every authoritative signer list, one run of `synchronizeSealers` leaves every
slot holding the corresponding signer, every signer enabled, and the stored node
count equal to the list length, so a second run with the same list performs no
storage writes. -/
theorem C9_synchronize_idempotent (signers : List Address) (st : RegistryState) :
    (synchronizeSealers signers (synchronizeSealers signers st).1).2 = [] ∧
    (∀ k (hk : k < signers.length),
      (synchronizeSealers signers st).1.sealers k = signers.get ⟨k, hk⟩ ∧
      (synchronizeSealers signers st).1.isSealer (signers.get ⟨k, hk⟩) = true) ∧
    (synchronizeSealers signers st).1.nbNodes = signers.length := by
  have hpost := insertPass_post signers 0 (removePass signers (st, []) 0 st.nbNodes)
  set sw2 := insertPass (removePass signers (st, []) 0 st.nbNodes) 0 signers with hsw2def
  have hrun : synchronizeSealers signers st =
      if sw2.1.nbNodes ≠ signers.length then
        ({ sw2.1 with nbNodes := signers.length },
          sw2.2 ++ [RegistryWrite.setNbNodes signers.length])
      else sw2 := by
    simp only [synchronizeSealers]
  have hseal : ∀ k (hk : k < signers.length),
      sw2.1.sealers k = signers.get ⟨k, hk⟩ ∧
      sw2.1.isSealer (signers.get ⟨k, hk⟩) = true := by
    intro k hk
    have h := hpost k hk
    rwa [Nat.zero_add] at h
  have hst1 : ((synchronizeSealers signers st).1.sealers = sw2.1.sealers ∧
      (synchronizeSealers signers st).1.isSealer = sw2.1.isSealer) ∧
      (synchronizeSealers signers st).1.nbNodes = signers.length := by
    rw [hrun]
    split
    · exact ⟨⟨rfl, rfl⟩, rfl⟩
    · next h => exact ⟨⟨rfl, rfl⟩, of_not_not h⟩
  obtain ⟨⟨hsl, hisl⟩, hnb⟩ := hst1
  have hget : ∀ k (hk : k < signers.length),
      (synchronizeSealers signers st).1.sealers k = signers.get ⟨k, hk⟩ ∧
      (synchronizeSealers signers st).1.isSealer (signers.get ⟨k, hk⟩) = true := by
    intro k hk
    rw [hsl, hisl]
    exact hseal k hk
  refine ⟨?_, hget, hnb⟩
  generalize hgen : (synchronizeSealers signers st).1 = st1 at hget hnb ⊢
  have hc : ∀ k, k < signers.length →
      containsAddr signers ((st1, ([] : List RegistryWrite)).1.sealers (0 + k)) = true := by
    intro k hk
    show containsAddr signers (st1.sealers (0 + k)) = true
    rw [Nat.zero_add, (hget k hk).1]
    exact (containsAddr_iff signers _).mpr (List.get_mem signers k hk)
  have hi : ∀ k (hk : k < signers.length),
      (st1, ([] : List RegistryWrite)).1.sealers (0 + k) = signers.get ⟨k, hk⟩ ∧
      (st1, ([] : List RegistryWrite)).1.isSealer (signers.get ⟨k, hk⟩) = true := by
    intro k hk
    have h := hget k hk
    constructor
    · show st1.sealers (0 + k) = _
      rw [Nat.zero_add]
      exact h.1
    · exact h.2
  simp only [synchronizeSealers]
  rw [hnb, removePass_noop signers signers.length 0 (st1, []) hc,
    insertPass_noop signers 0 (st1, []) hi,
    if_neg (by simp [hnb])]

/-- Lower bound on the counter after post-processing: whatever the reward does,
the counter drops by at most the block's transferred fees plus burnt fees. -/
theorem blockPostProcessingSupply_ge (total0 : ℤ) (ranking : Option (ℚ × ℤ))
    (txs : List PocrTx)
    (hrank : ∀ r n, ranking = some (r, n) → 0 ≤ r)
    (hfees : ∀ tx ∈ txs, 0 ≤ tx.FeeTransferred) :
    total0 - (txs.map fun tx => tx.FeeTransferred).sum - (txs.map fun tx => tx.FeeBurnt).sum ≤
      blockPostProcessingSupply total0 ranking txs := by
  have hFnn : 0 ≤ (txs.map fun tx => tx.FeeTransferred).sum := by
    apply List.sum_nonneg
    intro x hx
    obtain ⟨tx, htx, rfl⟩ := List.mem_map.mp hx
    exact hfees tx htx
  cases ranking with
  | none =>
    simp only [blockPostProcessingSupply, addTotalCryptoBalance, txFee_eq]
    have hfloor : ⌊(((txs.map fun tx => tx.FeeTransferred).sum : ℤ) : ℚ) * (0 : ℚ)⌋ = 0 := by
      simp
    split_ifs <;> omega
  | some p =>
    obtain ⟨r, n⟩ := p
    have hr : 0 ≤ r := hrank r n rfl
    simp only [blockPostProcessingSupply, addTotalCryptoBalance, txFee_eq]
    have hfloor : 0 ≤ ⌊(((txs.map fun tx => tx.FeeTransferred).sum : ℤ) : ℚ) * r⌋ := by
      apply Int.floor_nonneg.mpr
      exact mul_nonneg (by exact_mod_cast hFnn) hr
    split_ifs <;> omega

/-- C1 (counterexample): starting from the non-negative persisted counter `0`,
one block post-processing with a failed ranking (rank forced to `0`) and a single
transaction with transferred fee `1` drives the `GeneratedPocRTotal` counter to
`-1`: a negative stored value is reachable, refuting the claimed invariant. -/
theorem C1_counterexample :
    (0 : ℤ) ≤ 0 ∧ blockPostProcessingSupply 0 none [⟨1, 0⟩] = -1 ∧
      blockPostProcessingSupply 0 none [⟨1, 0⟩] < 0 := by
  have h : blockPostProcessingSupply 0 none [⟨1, 0⟩] = -1 := by
    norm_num [blockPostProcessingSupply, calcCarbonFootprintTxFee, addTotalCryptoBalance]
  exact ⟨le_refl 0, h, by omega⟩

/-- C1 (amended): for every execution of per-block post-processing starting from
a non-negative persisted total-supply counter, with the signer's rank
non-negative and per-transaction transferred fees non-negative, the counter
remains non-negative **provided** the block's transferred fees plus burnt fees
do not exceed the initial counter; without that bound the counter can go
negative (see the counterexample). -/
theorem C1_supply_nonneg (total0 : ℤ) (ranking : Option (ℚ × ℤ)) (txs : List PocrTx)
    (h0 : 0 ≤ total0)
    (hrank : ∀ r n, ranking = some (r, n) → 0 ≤ r)
    (hfees : ∀ tx ∈ txs, 0 ≤ tx.FeeTransferred)
    (hbound : (txs.map fun tx => tx.FeeTransferred).sum +
        (txs.map fun tx => tx.FeeBurnt).sum ≤ total0) :
    0 ≤ blockPostProcessingSupply total0 ranking txs := by
  have h := blockPostProcessingSupply_ge total0 ranking txs hrank hfees
  omega

theorem C1_witness : 0 ≤ blockPostProcessingSupply 10 none [⟨1, 1⟩] :=
  C1_supply_nonneg 10 none [⟨1, 1⟩] (by norm_num)
    (fun r n h => Option.noConfusion h) (by simp) (by simp)

/-- C2: for every rank `r ∈ [0,1]` and transaction list, the fee-adjustment
computation returns `(⌊F·r⌋ − F, B)` where `F` is the total transferred fee and
`B` the total burnt fee; in particular rank `1` gives adjustment `0` and rank
`0` gives adjustment `−F`. -/
theorem C2_fee_adjustment (txs : List PocrTx) :
    (∀ r : ℚ, 0 ≤ r → r ≤ 1 →
      calcCarbonFootprintTxFee r txs =
        (⌊((((txs.map fun tx => tx.FeeTransferred).sum : ℤ)) : ℚ) * r⌋ -
            (txs.map fun tx => tx.FeeTransferred).sum,
          (txs.map fun tx => tx.FeeBurnt).sum)) ∧
    (calcCarbonFootprintTxFee 1 txs).1 = 0 ∧
    (calcCarbonFootprintTxFee 0 txs).1 = -(txs.map fun tx => tx.FeeTransferred).sum := by
  refine ⟨fun r _ _ => txFee_eq r txs, ?_, ?_⟩
  · rw [txFee_eq]
    dsimp only
    rw [mul_one, Int.floor_intCast, sub_self]
  · rw [txFee_eq]
    dsimp only
    rw [mul_zero, Int.floor_zero, zero_sub]

theorem C2_witness : calcCarbonFootprintTxFee (1 / 2) [⟨3, 1⟩, ⟨4, 2⟩] = (-4, 3) := by
  rw [(C2_fee_adjustment [⟨3, 1⟩, ⟨4, 2⟩]).1 (1 / 2) (by norm_num) (by norm_num)]
  norm_num

/-- C3: the reward computation fails exactly when the inflation-control factor
fails (`M < 0`); on success it returns the floor of
`rank × CTCUnit × nbNodes × controlFactor(M)` clamped up to
`minCreationPerBlock`, hence is never negative, and is at least the floor of
`minCreationPerBlock` whenever `rank > 0` and `nbNodes > 0`. -/
theorem C3_reward_contract (r : ℚ) (N M : ℤ) (hr : 0 ≤ r) (hN : 0 ≤ N) :
    ((∃ e, CalculateCarbonFootprintReward r N M = .error e) ↔ M < 0) ∧
    (∀ u : ℤ, CalculateCarbonFootprintReward r N M = .ok u →
      (∀ q : ℚ, CalculateGlobalInflationControlFactor M = .ok q →
        u = ⌊max (r * (CTCUnit : ℚ) * (N : ℚ) * q) minCreationPerBlock⌋) ∧
      0 ≤ u ∧ (0 < r → 0 < N → ⌊minCreationPerBlock⌋ ≤ u)) := by
  constructor
  · constructor
    · rintro ⟨e, he⟩
      by_contra hM
      push_neg at hM
      obtain ⟨q, hq, -, -⟩ := infl_ok_of_nonneg hM
      rw [reward_of_infl_ok r N hq] at he
      exact absurd he (by simp)
    · intro hM
      exact ⟨_, reward_of_infl_error r N (infl_neg hM)⟩
  · intro u hu
    have hM : 0 ≤ M := by
      by_contra hM
      push_neg at hM
      rw [reward_of_infl_error r N (infl_neg hM)] at hu
      exact absurd hu (by simp)
    obtain ⟨q0, hq0, hq0pos, hq0le⟩ := infl_ok_of_nonneg hM
    rw [reward_of_infl_ok r N hq0, Except.ok.injEq] at hu
    have hmaxeq : (if r * (CTCUnit : ℚ) * (N : ℚ) * q0 < minCreationPerBlock
          then minCreationPerBlock else r * (CTCUnit : ℚ) * (N : ℚ) * q0) =
        max (r * (CTCUnit : ℚ) * (N : ℚ) * q0) minCreationPerBlock := by
      split
      · next h => exact (max_eq_right (le_of_lt h)).symm
      · next h => exact (max_eq_left (not_lt.mp h)).symm
    have hfl : ⌊minCreationPerBlock⌋ ≤
        ⌊max (r * (CTCUnit : ℚ) * (N : ℚ) * q0) minCreationPerBlock⌋ :=
      Int.floor_le_floor (le_max_right _ _)
    have hfl2 := hfl
    rw [floor_minCreation] at hfl2
    refine ⟨?_, ?_, ?_⟩
    · intro q hq
      rw [hq0, Except.ok.injEq] at hq
      rw [← hu, hmaxeq, hq]
    · rw [← hu, hmaxeq]
      omega
    · intro _ _
      rw [← hu, hmaxeq]
      exact hfl

theorem C3_witness :
    ((∃ e, CalculateCarbonFootprintReward 1 3 (-7) = .error e) ↔ (-7 : ℤ) < 0) ∧
    (0 : ℤ) ≤ 3000000000000000000 ∧ ⌊minCreationPerBlock⌋ ≤ 3000000000000000000 := by
  have hok : CalculateCarbonFootprintReward 1 3 0 = .ok 3000000000000000000 := by
    norm_num [CalculateCarbonFootprintReward, CalculateGlobalInflationControlFactor,
      minCreationPerBlock, CTCUnit]
  have h := (C3_reward_contract 1 3 0 (by norm_num) (by norm_num)).2 _ hok
  exact ⟨(C3_reward_contract 1 3 (-7) (by norm_num) (by norm_num)).1,
    h.2.1, h.2.2 (by norm_num) (by norm_num)⟩

/-- C4: the inflation-control factor is exactly `1` at supply `0`, fails on
negative supply, and for positive supply `M` returns the inverse of the exact
4-term truncated power series `∑ k < 5, L^k / k!` at
`L = M / (CTCUnit × inflationDenominator) × 72/100`. -/
theorem C4_inflation_formula :
    CalculateGlobalInflationControlFactor 0 = .ok 1 ∧
    (∀ M : ℤ, M < 0 → ∃ e, CalculateGlobalInflationControlFactor M = .error e) ∧
    (∀ M : ℤ, 0 < M →
      CalculateGlobalInflationControlFactor M =
        .ok ((∑ k ∈ Finset.range 5,
            ((M : ℚ) / ((CTCUnit * inflationDenominator : ℤ) : ℚ) * (72 / 100)) ^ k
              / (Nat.factorial k : ℚ))⁻¹)) := by
  refine ⟨infl_zero, fun M hM => ⟨_, infl_neg hM⟩, fun M hM => ?_⟩
  rw [infl_eq_of_pos hM]
  have hsum : inflD M = ∑ k ∈ Finset.range 5,
      ((M : ℚ) / ((CTCUnit * inflationDenominator : ℤ) : ℚ) * (72 / 100)) ^ k
        / (Nat.factorial k : ℚ) := by
    rw [Finset.sum_range_succ, Finset.sum_range_succ, Finset.sum_range_succ,
      Finset.sum_range_succ, Finset.sum_range_succ, Finset.sum_range_zero]
    unfold inflD LofM
    norm_num [Nat.factorial]
    ring
  rw [hsum]

theorem C4_witness :
    CalculateGlobalInflationControlFactor (10 ^ 27) = .ok (1 / 1184617) := by
  rw [C4_inflation_formula.2.2 (10 ^ 27) (by norm_num)]
  norm_num [Finset.sum_range_succ, CTCUnit, inflationDenominator, Nat.factorial]

/-- C5: the inflation-control factor is `1` at supply `0`, strictly decreasing
in the supply over positive supplies, and always lies in `(0, 1]` for
non-negative supplies. -/
theorem C5_inflation_range_mono :
    CalculateGlobalInflationControlFactor 0 = .ok 1 ∧
    (∀ M1 M2 : ℤ, ∀ q1 q2 : ℚ, 0 < M1 → M1 < M2 →
      CalculateGlobalInflationControlFactor M1 = .ok q1 →
      CalculateGlobalInflationControlFactor M2 = .ok q2 → q2 < q1) ∧
    (∀ (M : ℤ) (q : ℚ), 0 ≤ M → CalculateGlobalInflationControlFactor M = .ok q →
      0 < q ∧ q ≤ 1) := by
  refine ⟨infl_zero, ?_, fun M q hM h => infl_ok_range hM h⟩
  intro M1 M2 q1 q2 h1 h12 hq1 hq2
  rw [infl_eq_of_pos h1, Except.ok.injEq] at hq1
  rw [infl_eq_of_pos (lt_trans h1 h12), Except.ok.injEq] at hq2
  rw [← hq1, ← hq2]
  have hD1 := one_lt_inflD h1
  have hD2 := one_lt_inflD (lt_trans h1 h12)
  exact (inv_lt_inv₀ (by linarith) (by linarith)).mpr (inflD_strict_mono h1 h12)

theorem C5_witness :
    (0 : ℚ) < 1 / 1184617 ∧ (1 / 18424081 : ℚ) < 1 / 1184617 ∧ (1 / 1184617 : ℚ) ≤ 1 := by
  have h1 : CalculateGlobalInflationControlFactor (10 ^ 27) = .ok (1 / 1184617) := by
    norm_num [CalculateGlobalInflationControlFactor, CTCUnit, inflationDenominator]
  have h2 : CalculateGlobalInflationControlFactor (2 * 10 ^ 27) = .ok (1 / 18424081) := by
    norm_num [CalculateGlobalInflationControlFactor, CTCUnit, inflationDenominator]
  have hr := C5_inflation_range_mono.2.2 (10 ^ 27) (1 / 1184617) (by norm_num) h1
  have hm := C5_inflation_range_mono.2.1 (10 ^ 27) (2 * 10 ^ 27) (1 / 1184617)
    (1 / 18424081) (by norm_num) (by norm_num) h1 h2
  exact ⟨hr.1, hm, hr.2⟩

/-- C6: ranking fails exactly on a non-positive footprint or an empty peer list;
on success it returns the peer-list length and the rank `(9/10)^better` where
`better` counts peers with footprint strictly between `0` and the signer's; the
concrete case footprint `100` against `[50, 100, 150, 0]` yields rank `9/10`
and peer count `4`. -/
theorem C6_ranking_contract :
    (∀ (arr : List ℚ) (f : ℤ) (peers : List ℤ), RankCacheOk arr →
      ((∃ e, CalculateRanking arr f peers = .error e) ↔ f ≤ 0 ∨ peers = []) ∧
      (∀ (r : ℚ) (n : ℕ) (arr2 : List ℚ), CalculateRanking arr f peers = .ok (r, n, arr2) →
        n = peers.length ∧
        r = (9 / 10 : ℚ) ^ (peers.countP fun p => decide (0 < p) && decide (p < f)))) ∧
    CalculateRanking rankArrayInit 100 [50, 100, 150, 0] = .ok (9 / 10, 4, [1, 9 / 10]) := by
  constructor
  · intro arr f peers harr
    refine ⟨CalculateRanking_error_iff arr f peers, ?_⟩
    intro r n arr2 h
    obtain ⟨hr, hn, -⟩ := CalculateRanking_ok arr f peers r n arr2 harr h
    refine ⟨hn, ?_⟩
    rw [hr]
    have hpred : (fun p : ℤ => decide (p < f) && decide (0 < p)) =
        fun p : ℤ => decide (0 < p) && decide (p < f) := by
      funext p
      exact Bool.and_comm _ _
    rw [hpred]
  · norm_num [CalculateRanking, getRanking, rankArrayInit, growLoop, List.countP,
      List.countP.go]

theorem C6_witness : (5 : ℤ) ≤ 0 ∨ ([] : List ℤ) = [] :=
  ((C6_ranking_contract.1 rankArrayInit 5 [] rankArrayInit_ok).1).mp
    ⟨"cannot rank zero node", by norm_num [CalculateRanking]⟩

/-- C7: the audit-age penalty returns the footprint unchanged when the block
delta is non-positive or the footprint is non-positive, and otherwise equals
`⌊footprint × (100 + ⌊delta / MinBlockBetweenAudit⌋ × PenaltyOnOldFootprint) / 100⌋`
with the division by 100 applied last; concretely
`penalize(1000, 0, 2 × MinBlockBetweenAudit) = 1100`. -/
theorem C7_footprint_penalty :
    (∀ footprint lastBlock currentBlock : ℤ,
      (currentBlock - lastBlock ≤ 0 ∨ footprint ≤ 0 →
        calcCarbonFootprintAuditIncentive footprint lastBlock currentBlock = footprint) ∧
      (0 < currentBlock - lastBlock → 0 < footprint →
        calcCarbonFootprintAuditIncentive footprint lastBlock currentBlock =
          ⌊(footprint : ℚ) * (100 +
              (⌊((currentBlock - lastBlock : ℤ) : ℚ) / ((MinBlockBetweenAudit : ℤ) : ℚ)⌋ : ℚ) *
                ((PenaltyOnOldFootprint : ℤ) : ℚ)) / 100⌋)) ∧
    calcCarbonFootprintAuditIncentive 1000 0 (2 * MinBlockBetweenAudit) = 1100 := by
  constructor
  · intro footprint lastBlock currentBlock
    constructor
    · intro h
      simp only [calcCarbonFootprintAuditIncentive]
      rw [if_pos h]
    · intro hd hf
      simp only [calcCarbonFootprintAuditIncentive]
      rw [if_neg (by omega)]
      rw [floor_intCast_div _ _ (by norm_num [MinBlockBetweenAudit])]
      rw [show (footprint : ℚ) * (100 +
            ((((currentBlock - lastBlock) / MinBlockBetweenAudit : ℤ)) : ℚ) *
              ((PenaltyOnOldFootprint : ℤ) : ℚ)) / 100 =
          (((footprint * ((currentBlock - lastBlock) / MinBlockBetweenAudit *
              PenaltyOnOldFootprint + 100) : ℤ)) : ℚ) / ((100 : ℤ) : ℚ) by
        push_cast
        ring]
      rw [floor_intCast_div _ 100 (by norm_num)]
  · norm_num [calcCarbonFootprintAuditIncentive, MinBlockBetweenAudit, PenaltyOnOldFootprint]

theorem C7_witness :
    calcCarbonFootprintAuditIncentive 5 7 3 = 5 ∧
    calcCarbonFootprintAuditIncentive 1000 0 (2 * MinBlockBetweenAudit) = 1100 :=
  ⟨(C7_footprint_penalty.1 5 7 3).1 (by norm_num), C7_footprint_penalty.2⟩

/-- C8: for a fixed peer list and a fixed valid rank cache, a smaller positive
footprint never receives a smaller rank: if both rankings succeed then the rank
for the smaller footprint is at least the rank for the larger one. -/
theorem C8_rank_footprint_monotone (arr : List ℚ) (peers : List ℤ) (f1 f2 : ℤ)
    (r1 r2 : ℚ) (n1 n2 : ℕ) (a1 a2 : List ℚ)
    (harr : RankCacheOk arr) (hf1 : 0 < f1) (hf12 : f1 < f2)
    (h1 : CalculateRanking arr f1 peers = .ok (r1, n1, a1))
    (h2 : CalculateRanking arr f2 peers = .ok (r2, n2, a2)) : r2 ≤ r1 := by
  obtain ⟨hr1, -, -⟩ := CalculateRanking_ok arr f1 peers r1 n1 a1 harr h1
  obtain ⟨hr2, -, -⟩ := CalculateRanking_ok arr f2 peers r2 n2 a2 harr h2
  rw [hr1, hr2]
  apply pow_le_pow_of_le_one (by norm_num) (by norm_num)
  apply List.countP_mono_left
  intro p _ hcond
  simp only [Bool.and_eq_true, decide_eq_true_eq] at hcond ⊢
  exact ⟨lt_trans hcond.1 hf12, hcond.2⟩

theorem C8_witness : (9 / 10 : ℚ) ≤ 9 / 10 := by
  have h1 : CalculateRanking rankArrayInit 60 [50, 100, 150, 0] =
      .ok (9 / 10, 4, [1, 9 / 10]) := by
    norm_num [CalculateRanking, getRanking, rankArrayInit, growLoop, List.countP,
      List.countP.go]
  have h2 : CalculateRanking rankArrayInit 100 [50, 100, 150, 0] =
      .ok (9 / 10, 4, [1, 9 / 10]) := by
    norm_num [CalculateRanking, getRanking, rankArrayInit, growLoop, List.countP,
      List.countP.go]
  exact C8_rank_footprint_monotone rankArrayInit [50, 100, 150, 0] 60 100 (9 / 10) (9 / 10)
    4 4 [1, 9 / 10] [1, 9 / 10] rankArrayInit_ok (by norm_num) (by norm_num) h1 h2

theorem C9_witness :
    (synchronizeSealers [4, 9]
        (synchronizeSealers [4, 9] ⟨fun _ => 0, fun _ => false, 3⟩).1).2 = [] ∧
    (synchronizeSealers [4, 9] ⟨fun _ => 0, fun _ => false, 3⟩).1.sealers 0 = 4 ∧
    (synchronizeSealers [4, 9] ⟨fun _ => 0, fun _ => false, 3⟩).1.nbNodes = 2 := by
  have h := C9_synchronize_idempotent [4, 9] ⟨fun _ => 0, fun _ => false, 3⟩
  exact ⟨h.1, (h.2.1 0 (by norm_num)).1, h.2.2⟩

/-- C10 (implicit): the minimum-reward clamp applies unconditionally: for every
rank `r ≥ 0` (including `0`), peer count `N ≥ 0` (including `0`) and supply
`M ≥ 0`, the reward succeeds and is at least `⌊minCreationPerBlock⌋`, a strictly
positive amount — a direct call with zero rank never yields a zero reward. -/
theorem C10_min_reward_unconditional (r : ℚ) (N M : ℤ)
    (hr : 0 ≤ r) (hN : 0 ≤ N) (hM : 0 ≤ M) :
    ∃ u : ℤ, CalculateCarbonFootprintReward r N M = .ok u ∧
      ⌊minCreationPerBlock⌋ ≤ u ∧ 0 < u := by
  obtain ⟨q, hq, hqpos, hqle⟩ := infl_ok_of_nonneg hM
  have hle : minCreationPerBlock ≤
      if r * (CTCUnit : ℚ) * (N : ℚ) * q < minCreationPerBlock then minCreationPerBlock
      else r * (CTCUnit : ℚ) * (N : ℚ) * q := by
    split
    · exact le_refl _
    · next h => exact not_lt.mp h
  have h2 := Int.floor_le_floor hle
  have h3 := h2
  rw [floor_minCreation] at h3
  exact ⟨_, reward_of_infl_ok r N hq, h2, by omega⟩

theorem C10_witness :
    ⌊minCreationPerBlock⌋ ≤ 12683916793505834 ∧ (0 : ℤ) < 12683916793505834 := by
  obtain ⟨u, hu, hmin, hpos⟩ :=
    C10_min_reward_unconditional 0 0 0 (le_refl 0) (le_refl 0) (le_refl 0)
  have heval : CalculateCarbonFootprintReward 0 0 0 = .ok 12683916793505834 := by
    norm_num [CalculateCarbonFootprintReward, CalculateGlobalInflationControlFactor,
      minCreationPerBlock, CTCUnit]
  rw [heval, Except.ok.injEq] at hu
  exact ⟨hu ▸ hmin, hu ▸ hpos⟩

/-! ### Sanity examples -/

example : MinBlockBetweenAudit = 7884000 := by decide
example : getRanking rankArrayInit 1 = ([1, 9 / 10], 9 / 10) := by
  simp [getRanking, rankArrayInit, growLoop]
example : calcCarbonFootprintAuditIncentive 1000 0 (2 * MinBlockBetweenAudit) = 1100 := by
  norm_num [calcCarbonFootprintAuditIncentive, MinBlockBetweenAudit, PenaltyOnOldFootprint]
example : CalculateRanking rankArrayInit 100 [50, 100, 150, 0] = .ok (9 / 10, 4, [1, 9 / 10]) := by
  norm_num [CalculateRanking, getRanking, rankArrayInit, growLoop, List.countP, List.countP.go]
example : CalculateGlobalInflationControlFactor 0 = .ok 1 := by
  norm_num [CalculateGlobalInflationControlFactor]
example : blockPostProcessingSupply 0 none [⟨1, 0⟩] = -1 := by
  norm_num [blockPostProcessingSupply, calcCarbonFootprintTxFee, addTotalCryptoBalance]

end CliquePoCR
